import Mathlib

/-!
Verification development for the eyewitness-study experiment engine
(src/src/App.tsx and the two unnamed variant sources).  The TypeScript
program is shallowly embedded: React component state becomes explicit
state records, event handlers become step functions over those records,
and the reactive completion effects become explicit completion
predicates.  Timestamps produced by the external monotone clock are
threaded through the user actions as natural numbers.
-/

namespace EyewitnessStudy

/-- PickEvent of the spec: an entry of the per-option picked list built
by handleChoice and submitData, with fields num (the 1-based rank) and
time (elapsed milliseconds). -/
structure PickEvent where
  num : Nat
  time : Nat
deriving DecidableEq, Repr

/-- The Option interface of the source (option id plus the two
eyewitness scores).  Named OptionInfo here because Option is taken by
Lean; the numeric scores are embedded as integers, their values only
flow through untouched. -/
structure OptionInfo where
  option : Nat
  eyewitness1 : Int
  eyewitness2 : Int
deriving DecidableEq, Repr

/-- OptionData of the source: an Option extended with the picked list of
PickEvents. -/
structure OptionData where
  option : Nat
  eyewitness1 : Int
  eyewitness2 : Int
  picked : List PickEvent
deriving DecidableEq, Repr

/-- TrialType of the source: the union of the three modality tags of the
variant sources, rank, consec (both App.tsx versions) and dnd
(the drag-and-drop variant source). -/
inductive Version
  | rank
  | consec
  | dnd
deriving DecidableEq, Repr

/-- GroupedStimulus of the source. -/
structure GroupedStimulus where
  category : String
  stimulusIDwithinCategory : Int
  options : List OptionInfo
deriving DecidableEq, Repr

/-- TrialSpec: a GroupedStimulus spread together with a modality tag,
exactly the shape produced by the module level stimuli expression. -/
structure TrialSpec where
  category : String
  stimulusIDwithinCategory : Int
  options : List OptionInfo
  type : Version
deriving DecidableEq, Repr

/-- One parsed CSVRow of the source (only the typed fields the grouper
reads). -/
structure CSVRow where
  stimulus : Int
  option : Nat
  eyewitness1 : Int
  eyewitness2 : Int
  category : String
deriving DecidableEq, Repr

/-- A completed-trial record, the object literal the EyewitnessBlock
next callback appends for each finished EyewitnessTable. -/
structure Trial where
  version : Version
  category : String
  stimulusIdWithinCategory : Int
  option : List OptionData
deriving DecidableEq, Repr

/- ----------------------------------------------------------------
Stimulus grouper (loadAllStimuli, the groupedData reduce).
---------------------------------------------------------------- -/

/-- The Option literal built from one CSV row inside the grouper. -/
def mkOptionInfo (r : CSVRow) : OptionInfo :=
  { option := r.option, eyewitness1 := r.eyewitness1, eyewitness2 := r.eyewitness2 }

/-- The singleton GroupedStimulus pushed when no existing group matches
the row's key. -/
def mkSingletonGroup (r : CSVRow) : GroupedStimulus :=
  { category := r.category, stimulusIDwithinCategory := r.stimulus,
    options := [mkOptionInfo r] }

/-- Key of a GroupedStimulus, the pair compared by the find inside the
reduce. -/
def groupKey (g : GroupedStimulus) : String × Int :=
  (g.category, g.stimulusIDwithinCategory)

/-- Key of a CSVRow: the grouper matches s.category === row.category and
s.stimulusIDwithinCategory === row.stimulus. -/
def rowKey (r : CSVRow) : String × Int :=
  (r.category, r.stimulus)

/-- One step of the groupedData reduce: find the first existing
GroupedStimulus with the row's key and push an Option into it, or, when
none matches, push a new singleton group at the end. -/
def addRow : List GroupedStimulus → CSVRow → List GroupedStimulus
  | [], r => [mkSingletonGroup r]
  | g :: gs, r =>
      if groupKey g = rowKey r then
        { g with options := g.options ++ [mkOptionInfo r] } :: gs
      else
        g :: addRow gs r

/-- The full groupedData reduce over the concatenated row list. -/
def groupRows (rows : List CSVRow) : List GroupedStimulus :=
  rows.foldl addRow []

/-- Options stored under a key: the first group whose key matches,
projected to its option list. -/
def lookupGroup (gs : List GroupedStimulus) (k : String × Int) : Option (List OptionInfo) :=
  (gs.find? fun g => decide (groupKey g = k)).map (·.options)

/-- Appending a batch of options to an optional existing option list:
some existing list is extended, an absent list materialises only when
the batch is nonempty.  Used to state the grouper theorem. -/
def extendLookup : Option (List OptionInfo) → List OptionInfo → Option (List OptionInfo)
  | some os, xs => some (os ++ xs)
  | none, [] => none
  | none, x :: xs => some (x :: xs)

/-- First-seen-order key list of a sequence, starting from an already
accumulated key list: a key is appended the first time it appears. -/
def firstSeenFrom (init : List (String × Int)) (l : List (String × Int)) : List (String × Int) :=
  l.foldl (fun acc k => if k ∈ acc then acc else acc ++ [k]) init

/-- First-seen-order key list of a sequence. -/
def firstSeen (l : List (String × Int)) : List (String × Int) :=
  firstSeenFrom [] l

/- ----------------------------------------------------------------
Trial list builder (the module level stimuli expression).
---------------------------------------------------------------- -/

/-- Truncation applied by slice(0, nitems): slice(0, undefined) copies
the whole list, slice(0, n) keeps the first n entries. -/
def truncateStimuli (l : List GroupedStimulus) : Option Nat → List GroupedStimulus
  | none => l
  | some n => l.take n

/-- The TrialSpec literal spread from a GroupedStimulus and a modality
tag. -/
def mkTrialSpec (s : GroupedStimulus) (m : Version) : TrialSpec :=
  { category := s.category, stimulusIDwithinCategory := s.stimulusIDwithinCategory,
    options := s.options, type := m }

/-- The emitted (pre-shuffle) trial list: map each retained
GroupedStimulus to one TrialSpec per configured modality, then flatten.
The modality pair is [rank, consec] in App.tsx and [consec, dnd] in the
drag-and-drop variant, so it is a parameter here. -/
def emitTrialSpecs (stimuli : List GroupedStimulus) (nitems : Option Nat)
    (mods : List Version) : List TrialSpec :=
  ((truncateStimuli stimuli nitems).map fun s => mods.map (mkTrialSpec s)).flatten

/-- The scheduled trial list: the emitted list passed through the
external shuffle collaborator. -/
def scheduledTrials (stimuli : List GroupedStimulus) (nitems : Option Nat)
    (mods : List Version) (shuffleFn : List TrialSpec → List TrialSpec) : List TrialSpec :=
  shuffleFn (emitTrialSpecs stimuli nitems mods)

/- ----------------------------------------------------------------
EyewitnessTable interaction state machine (rank and consec trials).
---------------------------------------------------------------- -/

/-- The component state of EyewitnessTable: the pause gate flag, the
startedTimestampRef value, the per-option data with accumulated picks,
and the nSelection counter (starting at 1). -/
structure TableState where
  isPauseScreen : Bool
  startedTimestamp : Nat
  data : List OptionData
  nSelection : Nat
deriving DecidableEq, Repr

/-- Initial EyewitnessTable state: pause screen shown, timer at mount
time, every option with an empty picked list, nSelection 1. -/
def tableInit (t0 : Nat) (stimulus : List OptionInfo) : TableState :=
  { isPauseScreen := true, startedTimestamp := t0,
    data := stimulus.map fun s =>
      { option := s.option, eyewitness1 := s.eyewitness1,
        eyewitness2 := s.eyewitness2, picked := [] },
    nSelection := 1 }

/-- The setData(prevData.map(...)) update of handleChoice: append one
PickEvent to the option at the clicked index, leave the others
untouched. -/
def appendPickAtIdx : List OptionData → Nat → PickEvent → List OptionData
  | [], _, _ => []
  | d :: ds, 0, pe => { d with picked := d.picked ++ [pe] } :: ds
  | d :: ds, Nat.succ i, pe => d :: appendPickAtIdx ds i pe

/-- A user action on the table: a click anywhere on the page (which only
matters on the pause screen) or a click on the choice control of the
option at a row index.  Each action carries the clock value now() reads
at that moment. -/
inductive TAction
  | screenClick (t : Nat)
  | choiceClick (i : Nat) (t : Nat)
deriving DecidableEq, Repr

/-- Whether the choice control of row i can be operated: the table body
is only rendered off the pause screen, the trial must not already be
complete (the completion effect unmounts it), the row must exist, and
the button itself is rendered only under
row.picked.length === 0 || version === 'rank' (so in rank trials the
control stays rendered even for already picked rows). -/
def choiceAllowed (v : Version) (s : TableState) (i : Nat) : Bool :=
  !s.isPauseScreen && decide (s.nSelection ≤ s.data.length) &&
    (match s.data.get? i with
     | some d => decide (d.picked = []) || decide (v = Version.rank)
     | none => false)

/-- One step of the EyewitnessTable machine.  A screen click dismisses
the pause gate and (through the isPauseScreen effect) resets the timer.
A choice click runs handleChoice: compute the duration since the last
timer reset, append PickEvent num := nSelection, increment nSelection,
re-enter the pause screen when the version is rank and this was not the
last selection, and reset the timer. -/
def tableStep (v : Version) (s : TableState) : TAction → Option TableState
  | .screenClick t =>
      if s.isPauseScreen then
        some { s with isPauseScreen := false, startedTimestamp := t }
      else none
  | .choiceClick i t =>
      if choiceAllowed v s i then
        some { isPauseScreen :=
                 decide (v = Version.rank) && decide (s.nSelection + 1 ≤ s.data.length),
               startedTimestamp := t,
               data := appendPickAtIdx s.data i { num := s.nSelection, time := t - s.startedTimestamp },
               nSelection := s.nSelection + 1 }
      else none

/-- Run the table machine over a list of user actions, rejecting an
action that the rendered UI cannot produce. -/
def runTable (v : Version) (s : TableState) : List TAction → Option TableState
  | [] => some s
  | a :: rest =>
      match tableStep v s a with
      | some s1 => runTable v s1 rest
      | none => none

/-- Completion condition of the EyewitnessTable effect: next(data) fires
once nSelection exceeds the option count. -/
def tableComplete (s : TableState) : Prop :=
  s.data.length < s.nSelection

instance (s : TableState) : Decidable (tableComplete s) :=
  inferInstanceAs (Decidable (s.data.length < s.nSelection))

/-- Picked list of the option at row index i, when the row exists. -/
def picksAt (s : TableState) (i : Nat) : Option (List PickEvent) :=
  (s.data.get? i).map (·.picked)

/-- Row indices of the choice clicks of an action list, in click
order. -/
def chosen : List TAction → List Nat
  | [] => []
  | .screenClick _ :: rest => chosen rest
  | .choiceClick i _ :: rest => i :: chosen rest

/- ----------------------------------------------------------------
DNDTable drag-and-drop machine (the dnd variant source).
---------------------------------------------------------------- -/

/-- Index of the first occurrence of a value, as items.indexOf computes
it for a present value.  The JavaScript indexOf of an absent value is
-1; this total model returns an index past the end instead, and every
use below is guarded by membership, as the real component only receives
drag events for ids it rendered. -/
def jsIndexOf : List Nat → Nat → Nat
  | [], _ => 0
  | b :: t, a => if b = a then 0 else jsIndexOf t a + 1

/-- Splice-style insertion: insert x before position n, appending at the
end when n runs past the list, as Array.prototype.splice does. -/
def spliceInsert (x : Nat) : Nat → List Nat → List Nat
  | _, [] => [x]
  | 0, l => x :: l
  | Nat.succ n, a :: t => a :: spliceInsert x n t

/-- The dnd-kit arrayMove helper: remove the element at fromIdx and
re-insert it at toIdx. -/
def arrayMove (l : List Nat) (fromIdx toIdx : Nat) : List Nat :=
  match l.get? fromIdx with
  | some x => spliceInsert x toIdx (l.eraseIdx fromIdx)
  | none => l

/-- Component state of DNDTable: the working order of option ids, the
hasDragged and showConfirmation flags, the startedTimestampRef value,
and the payload handed to next once submitData ran (none before). -/
structure DndState where
  items : List Nat
  hasDragged : Bool
  showConfirmation : Bool
  startedTimestamp : Nat
  submitted : Option (List OptionData)
deriving DecidableEq, Repr

/-- Initial DNDTable state: the working order seeded with the option ids
in received order. -/
def dndInit (t0 : Nat) (data : List OptionData) : DndState :=
  { items := data.map (·.option), hasDragged := false, showConfirmation := false,
    startedTimestamp := t0, submitted := none }

/-- The updatedData.findIndex plus push step of submitData: append one
PickEvent to the first option whose id matches, a no-op when the id is
absent (findIndex === -1). -/
def pushPickForOption : List OptionData → Nat → PickEvent → List OptionData
  | [], _, _ => []
  | d :: ds, oid, pe =>
      if d.option = oid then { d with picked := d.picked ++ [pe] } :: ds
      else d :: pushPickForOption ds oid pe

/-- The items.forEach loop of submitData, carrying the running index:
the option at position idx of the working order receives
PickEvent num := idx + 1 with the one shared duration. -/
def submitPicksAux (duration : Nat) : List OptionData → List Nat → Nat → List OptionData
  | acc, [], _ => acc
  | acc, oid :: rest, idx =>
      submitPicksAux duration (pushPickForOption acc oid { num := idx + 1, time := duration })
        rest (idx + 1)

/-- submitData of DNDTable: one global duration, then one PickEvent per
working-order position. -/
def submitPicks (data : List OptionData) (items : List Nat) (duration : Nat) : List OptionData :=
  submitPicksAux duration data items 0

/-- A user event on the DNDTable: one complete drag session (dnd-kit
fires onDragStart and then onDragEnd with the active and over ids, equal
ids meaning the no-op self drop), the Confirm button, and the two
buttons of the confirmation dialog.  Events that can submit carry the
clock value now() reads at that moment. -/
inductive DndEvent
  | dragGesture (a b : Nat)
  | confirmClick (t : Nat)
  | cancelClick
  | continueClick (t : Nat)
deriving DecidableEq, Repr

/-- One step of the DNDTable machine.  A drag session sets hasDragged
(onDragStart) and, when the ids differ, moves the active id to the over
id's position (onDragEnd).  Confirm opens the confirmation dialog when
the user never dragged, and submits otherwise.  The dialog's Cancel
closes it; its Continue closes it and submits.  Once submitted the
component is unmounted, and the dialog overlay blocks the controls
behind it. -/
def dndStep (data : List OptionData) (s : DndState) : DndEvent → Option DndState
  | .dragGesture a b =>
      if s.submitted.isSome then none
      else if s.showConfirmation then none
      else if a ∈ s.items ∧ b ∈ s.items then
        some { s with hasDragged := true,
                      items := if a ≠ b then
                                 arrayMove s.items (jsIndexOf s.items a) (jsIndexOf s.items b)
                               else s.items }
      else none
  | .confirmClick t =>
      if s.submitted.isSome then none
      else if s.showConfirmation then none
      else if s.hasDragged then
        some { s with submitted := some (submitPicks data s.items (t - s.startedTimestamp)) }
      else
        some { s with showConfirmation := true }
  | .cancelClick =>
      if s.submitted.isSome then none
      else if s.showConfirmation then some { s with showConfirmation := false }
      else none
  | .continueClick t =>
      if s.submitted.isSome then none
      else if s.showConfirmation then
        some { s with showConfirmation := false,
                      submitted := some (submitPicks data s.items (t - s.startedTimestamp)) }
      else none

/-- Run the DNDTable machine over a list of user events. -/
def dndRun (data : List OptionData) (s : DndState) : List DndEvent → Option DndState
  | [] => some s
  | e :: rest =>
      match dndStep data s e with
      | some s1 => dndRun data s1 rest
      | none => none

/- ----------------------------------------------------------------
EyewitnessBlock trial sequencer.
---------------------------------------------------------------- -/

/-- Component state of EyewitnessBlock: the stimulusCounter cursor and
the accumulated per-trial data list. -/
structure BlockState where
  stimulusCounter : Nat
  data : List Trial
deriving DecidableEq, Repr

/-- Initial sequencer state. -/
def blockInit : BlockState :=
  { stimulusCounter := 0, data := [] }

/-- The completed-trial record the EyewitnessBlock next callback builds
for the current TrialSpec from the finished table's data. -/
def mkTrialEntry (spec : TrialSpec) (newData : List OptionData) : Trial :=
  { version := spec.type, category := spec.category,
    stimulusIdWithinCategory := spec.stimulusIDwithinCategory, option := newData }

/-- Advance step of the sequencer: append the record for the current
TrialSpec and increment the cursor.  A result can only arrive from the
one mounted table, so only while the cursor still points into the list.
-/
def blockStep (specs : List TrialSpec) (s : BlockState) (newData : List OptionData) :
    Option BlockState :=
  match specs.get? s.stimulusCounter with
  | some spec =>
      some { stimulusCounter := s.stimulusCounter + 1,
             data := s.data ++ [mkTrialEntry spec newData] }
  | none => none

/-- Run the sequencer over the per-trial response data, in trial
order. -/
def blockRun (specs : List TrialSpec) (s : BlockState) :
    List (List OptionData) → Option BlockState
  | [] => some s
  | r :: rest =>
      match blockStep specs s r with
      | some s1 => blockRun specs s1 rest
      | none => none

/-- Completion contract of the EyewitnessBlock effect: one next(data)
call carrying the full accumulated list, fired exactly once the cursor
reaches the trial-list length; before that no payload is delivered. -/
def blockPayload (specs : List TrialSpec) (s : BlockState) : Option (List Trial) :=
  if specs.length ≤ s.stimulusCounter then some s.data else none

/- ----------------------------------------------------------------
Export transformer (processJsonToCSVs).
---------------------------------------------------------------- -/

/-- ProcessedRow of the source: one flat export row per option of a
trial.  The four rank slots are hard-coded. -/
structure ProcessedRow where
  version : Version
  category : String
  stimulusidwithincategory : Int
  option : Nat
  eyewitness1 : Int
  eyewitness2 : Int
  pickedAsNr1 : Bool
  pickedAsNr2 : Bool
  pickedAsNr3 : Bool
  pickedAsNr4 : Bool
  timePickedNr1 : Option Nat
  timePickedNr2 : Option Nat
  timePickedNr3 : Option Nat
  timePickedNr4 : Option Nat
deriving DecidableEq, Repr

/-- The row literal of trials.flatMap(... trial.option.map(opt => ...)):
pickedAsNrK is the truthiness of picked.find(p => p.num == K), and
timePickedNrK is that find's optionally-chained time (undefined when no
event matches, modelled as none). -/
def mkProcessedRow (t : Trial) (opt : OptionData) : ProcessedRow :=
  { version := t.version, category := t.category,
    stimulusidwithincategory := t.stimulusIdWithinCategory,
    option := opt.option, eyewitness1 := opt.eyewitness1, eyewitness2 := opt.eyewitness2,
    pickedAsNr1 := (opt.picked.find? fun p => decide (p.num = 1)).isSome,
    pickedAsNr2 := (opt.picked.find? fun p => decide (p.num = 2)).isSome,
    pickedAsNr3 := (opt.picked.find? fun p => decide (p.num = 3)).isSome,
    pickedAsNr4 := (opt.picked.find? fun p => decide (p.num = 4)).isSome,
    timePickedNr1 := (opt.picked.find? fun p => decide (p.num = 1)).map (·.time),
    timePickedNr2 := (opt.picked.find? fun p => decide (p.num = 2)).map (·.time),
    timePickedNr3 := (opt.picked.find? fun p => decide (p.num = 3)).map (·.time),
    timePickedNr4 := (opt.picked.find? fun p => decide (p.num = 4)).map (·.time) }

/-- The rows array of processJsonToCSVs. -/
def processRows (trials : List Trial) : List ProcessedRow :=
  trials.flatMap fun t => t.option.map (mkProcessedRow t)

/-- A CSV cell value as Object.values produces it: a string, a number,
a boolean, or undefined for a missing time. -/
inductive CellValue
  | vstr (s : String)
  | vint (n : Int)
  | vnat (n : Nat)
  | vbool (b : Bool)
  | vundef
deriving DecidableEq, Repr

/-- Cell serialization of the export: the row map turns null into the
empty string and Array.prototype.join stringifies everything else,
rendering undefined (and null) as the empty field, booleans as
true/false and numbers in decimal. -/
def serializeCell : CellValue → String
  | .vstr s => s
  | .vint n => toString n
  | .vnat n => toString n
  | .vbool b => if b then "true" else "false"
  | .vundef => ""

/-- The modality tag as the string stored in trial.version. -/
def versionString : Version → String
  | .rank => "rank"
  | .consec => "consec"
  | .dnd => "dnd"

/-- An optional time as the cell Object.values yields for it. -/
def cellOfTime : Option Nat → CellValue
  | none => .vundef
  | some n => .vnat n

/-- Object.values of a ProcessedRow, in the insertion order of the row
literal's keys. -/
def rowCells (r : ProcessedRow) : List CellValue :=
  [.vstr (versionString r.version), .vstr r.category,
   .vint r.stimulusidwithincategory, .vnat r.option,
   .vint r.eyewitness1, .vint r.eyewitness2,
   .vbool r.pickedAsNr1, .vbool r.pickedAsNr2, .vbool r.pickedAsNr3, .vbool r.pickedAsNr4,
   cellOfTime r.timePickedNr1, cellOfTime r.timePickedNr2,
   cellOfTime r.timePickedNr3, cellOfTime r.timePickedNr4]

/-- One serialized data line: Object.values(row).map(...).join(','). -/
def serializeRow (r : ProcessedRow) : String :=
  String.intercalate "," ((rowCells r).map serializeCell)

/-- The header line Object.keys(rows[0]).join(',') produces whenever the
first row exists: the row literal's keys in insertion order. -/
def headerLine : String :=
  String.intercalate ","
    ["version", "category", "stimulusidwithincategory", "option",
     "eyewitness1", "eyewitness2",
     "pickedAsNr1", "pickedAsNr2", "pickedAsNr3", "pickedAsNr4",
     "timePickedNr1", "timePickedNr2", "timePickedNr3", "timePickedNr4"]

/-- FileUpload payload of the export contract. -/
structure FileUploadModel where
  filename : String
  encoding : String
  content : String
deriving DecidableEq, Repr

/-- processJsonToCSVs restricted to the trial-data payload it always
builds.  The source computes Object.keys(rows[0]) unconditionally, so an
empty rows array makes it read a property of undefined and throw a
TypeError; that exceptional outcome is modelled as none. -/
def processJsonToCSVs (sessionID : Nat) (trials : List Trial) : Option (List FileUploadModel) :=
  match processRows trials with
  | [] => none
  | r :: rest =>
      some [{ filename := toString sessionID ++ "_trialdata.csv",
              encoding := "utf8",
              content := String.intercalate "\n"
                (headerLine :: (r :: rest).map serializeRow) }]

/-- Rank-slot selector over an export row: the pickedAsNrK field for
K in 1..4. -/
def pickedFieldAt (r : ProcessedRow) : Nat → Bool
  | 1 => r.pickedAsNr1
  | 2 => r.pickedAsNr2
  | 3 => r.pickedAsNr3
  | 4 => r.pickedAsNr4
  | _ => false

/-- Rank-slot selector over an export row: the timePickedNrK field for
K in 1..4. -/
def timeFieldAt (r : ProcessedRow) : Nat → Option Nat
  | 1 => r.timePickedNr1
  | 2 => r.timePickedNr2
  | 3 => r.timePickedNr3
  | 4 => r.timePickedNr4
  | _ => none

/- Concrete fixtures used by counterexamples and witnesses. -/

/-- A two-option stimulus with ids 1 and 2. -/
def osTwo : List OptionInfo := [⟨1, 0, 0⟩, ⟨2, 0, 0⟩]

/-- The same two options as fresh OptionData. -/
def dataTwo : List OptionData := [⟨1, 0, 0, []⟩, ⟨2, 0, 0, []⟩]

/-- An option answered at rank 2 after 450 ms, the spec's export
example. -/
def optEx : OptionData := ⟨7, 1, 2, [⟨2, 450⟩]⟩

/-- A one-option completed trial around optEx. -/
def trialEx : Trial := ⟨.dnd, "cat", 1, [optEx]⟩

/-- A one-option stimulus in category a. -/
def gsA : GroupedStimulus := ⟨"a", 1, [⟨1, 2, 3⟩]⟩

/-- A one-option stimulus in category b. -/
def gsB : GroupedStimulus := ⟨"b", 2, [⟨4, 5, 6⟩]⟩

/-- Sample rows feeding the grouper: two keys interleaved. -/
def rowsEx : List CSVRow :=
  [⟨1, 10, 0, 0, "a"⟩, ⟨2, 20, 0, 0, "a"⟩, ⟨1, 11, 0, 0, "a"⟩]

/-- State of a consec trial over osTwo after picking option 0 at time 2
and option 1 at time 5: the completed two-pick run. -/
def consecFinal : TableState :=
  ⟨false, 5, [⟨1, 0, 0, [⟨1, 1⟩]⟩, ⟨2, 0, 0, [⟨2, 3⟩]⟩], 3⟩

/-- State of a rank trial over osTwo after one pick of option 0 and a
pause dismissal: option 0 already carries its PickEvent. -/
def rankMid : TableState :=
  ⟨false, 3, [⟨1, 0, 0, [⟨1, 1⟩]⟩, ⟨2, 0, 0, []⟩], 2⟩

/-- State of a rank trial over osTwo after clicking option 0 twice: the
trial is complete, option 0 holds ranks 1 and 2, option 1 none. -/
def rankFinal : TableState :=
  ⟨false, 4, [⟨1, 0, 0, [⟨1, 1⟩, ⟨2, 1⟩]⟩, ⟨2, 0, 0, []⟩], 3⟩

/-- State of a dnd trial over dataTwo after one real reorder dragging
id 2 over id 1. -/
def dndMid : DndState := ⟨[2, 1], true, false, 0, none⟩

/-- Run invariant of a consec trial relating the machine state to the
row indices clicked so far: the counter is one above the click count,
the clicked indices are distinct valid rows, unclicked rows hold no
picks, and the row clicked k-th holds the single PickEvent of rank
k + 1. -/
def consecInv (N : Nat) (cs : List Nat) (s : TableState) : Prop :=
  s.nSelection = cs.length + 1 ∧
  s.data.length = N ∧
  cs.Nodup ∧
  (∀ c ∈ cs, c < N) ∧
  (∀ i, i < N → i ∉ cs → picksAt s i = some []) ∧
  (∀ k j, cs.get? k = some j → ∃ t, picksAt s j = some [⟨k + 1, t⟩])

/- ----------------------------------------------------------------
Helper lemmas.
---------------------------------------------------------------- -/

theorem length_flatten_map_mods (mods : List Version) :
    ∀ l : List GroupedStimulus,
      ((l.map fun s => mods.map (mkTrialSpec s)).flatten).length = l.length * mods.length
  | [] => by simp
  | s :: rest => by
      simp [List.flatten_cons, length_flatten_map_mods mods rest]
      ring

/- ----------------------------------------------------------------
Claim theorems.
---------------------------------------------------------------- -/

/-- Claim C7 (code_bug evidence): on an empty collected trial sequence
the export transformer does not yield an empty table; it reads
Object.keys of the missing first row and throws, modelled as none. -/
theorem c7_empty_trials_export_crashes :
    processJsonToCSVs 1 [] = none := rfl

/-- Claim C6: the export transformer emits exactly one row per
OptionResponse; for each rank slot K in 1..4, pickedAsNrK holds exactly
when some PickEvent of the option has rank K; whenever such an event
exists timePickedNrK carries the elapsed time of a rank-K event of that
option, it is undefined when none exists, and the undefined value
serializes as the empty field, never as the word undefined or null. -/
theorem c6_export_row_fidelity (trials : List Trial) (t : Trial) (o : OptionData) (k : Nat)
    (ht : t ∈ trials) (ho : o ∈ t.option) (hk1 : 1 ≤ k) (hk4 : k ≤ 4) :
    mkProcessedRow t o ∈ processRows trials ∧
    (processRows trials).length = (trials.map fun tr => tr.option.length).sum ∧
    (pickedFieldAt (mkProcessedRow t o) k = true ↔ ∃ p ∈ o.picked, p.num = k) ∧
    ((∃ p ∈ o.picked, p.num = k) →
       ∃ p ∈ o.picked, p.num = k ∧ timeFieldAt (mkProcessedRow t o) k = some p.time) ∧
    (∀ n, timeFieldAt (mkProcessedRow t o) k = some n →
       ∃ p ∈ o.picked, p.num = k ∧ p.time = n) ∧
    ((¬ ∃ p ∈ o.picked, p.num = k) →
       timeFieldAt (mkProcessedRow t o) k = none ∧
       serializeCell (cellOfTime (timeFieldAt (mkProcessedRow t o) k)) = "") ∧
    serializeCell CellValue.vundef = "" ∧
    serializeCell CellValue.vundef ≠ "undefined" ∧
    serializeCell CellValue.vundef ≠ "null" := by
  refine ⟨?_, ?_, ?_, ?_, ?_, ?_, rfl, by decide, by decide⟩
  · exact List.mem_flatMap.mpr ⟨t, ht, List.mem_map_of_mem _ ho⟩
  · simp [processRows, List.length_flatMap, Function.comp_def]
  · interval_cases k <;>
      simp [pickedFieldAt, mkProcessedRow, List.find?_isSome]
  · intro hex
    have hsome : (o.picked.find? fun p => decide (p.num = k)).isSome = true := by
      rw [List.find?_isSome]
      obtain ⟨p, hp, hnum⟩ := hex
      exact ⟨p, hp, by simp [hnum]⟩
    obtain ⟨p, hfind⟩ := Option.isSome_iff_exists.mp hsome
    refine ⟨p, List.mem_of_find?_eq_some hfind, by simpa using List.find?_some hfind, ?_⟩
    interval_cases k <;>
      · simp only [timeFieldAt, mkProcessedRow]
        rw [hfind]
        rfl
  · intro n hn
    interval_cases k <;>
      · simp only [timeFieldAt, mkProcessedRow, Option.map_eq_some'] at hn
        obtain ⟨p, hp, htime⟩ := hn
        exact ⟨p, List.mem_of_find?_eq_some hp,
               by simpa using List.find?_some hp, htime⟩
  · intro hnone
    have hfind : (o.picked.find? fun p => decide (p.num = k)) = none := by
      refine List.find?_eq_none.mpr ?_
      intro p hp
      simp only [decide_eq_true_eq]
      exact fun h => hnone ⟨p, hp, h⟩
    interval_cases k <;>
      · simp only [timeFieldAt, mkProcessedRow]
        rw [hfind]
        exact ⟨rfl, rfl⟩

/-- Claim C6 witness: the spec's concrete export example, an option
picked at rank 2 after 450 ms, whose row carries pickedAsNr2 true and
timePickedNr2 equal to 450. -/
theorem c6_export_row_fidelity_witness :
    (trialEx ∈ [trialEx] ∧ optEx ∈ trialEx.option ∧ 1 ≤ 2 ∧ 2 ≤ 4) ∧
    timeFieldAt (mkProcessedRow trialEx optEx) 2 = some 450 ∧
    (mkProcessedRow trialEx optEx ∈ processRows [trialEx] ∧
     (processRows [trialEx]).length = ([trialEx].map fun tr => tr.option.length).sum ∧
     (pickedFieldAt (mkProcessedRow trialEx optEx) 2 = true ↔
        ∃ p ∈ optEx.picked, p.num = 2) ∧
     ((∃ p ∈ optEx.picked, p.num = 2) →
        ∃ p ∈ optEx.picked, p.num = 2 ∧
          timeFieldAt (mkProcessedRow trialEx optEx) 2 = some p.time) ∧
     (∀ n, timeFieldAt (mkProcessedRow trialEx optEx) 2 = some n →
        ∃ p ∈ optEx.picked, p.num = 2 ∧ p.time = n) ∧
     ((¬ ∃ p ∈ optEx.picked, p.num = 2) →
        timeFieldAt (mkProcessedRow trialEx optEx) 2 = none ∧
        serializeCell (cellOfTime (timeFieldAt (mkProcessedRow trialEx optEx) 2)) = "") ∧
     serializeCell CellValue.vundef = "" ∧
     serializeCell CellValue.vundef ≠ "undefined" ∧
     serializeCell CellValue.vundef ≠ "null") :=
  ⟨⟨by simp, by simp [trialEx], by decide, by decide⟩, by decide,
   c6_export_row_fidelity [trialEx] trialEx optEx 2 (by simp) (by simp [trialEx])
     (by decide) (by decide)⟩

/-- Claim C8: the trial list builder truncates to the first maxItems
stimuli (no truncation when unset), emits one TrialSpec per retained
stimulus per configured modality, and the scheduled list is a
permutation of the emitted list whenever the external shuffle returns a
permutation of its input. -/
theorem c8_trial_list_builder (stimuli : List GroupedStimulus) (nitems : Option Nat)
    (mods : List Version) (shuffleFn : List TrialSpec → List TrialSpec)
    (hs : ∀ l, (shuffleFn l).Perm l) :
    truncateStimuli stimuli none = stimuli ∧
    (∀ n, truncateStimuli stimuli (some n) = List.take n stimuli) ∧
    emitTrialSpecs stimuli nitems mods
      = (truncateStimuli stimuli nitems).flatMap (fun s => mods.map (mkTrialSpec s)) ∧
    (emitTrialSpecs stimuli nitems mods).length
      = (truncateStimuli stimuli nitems).length * mods.length ∧
    (scheduledTrials stimuli nitems mods shuffleFn).Perm
      (emitTrialSpecs stimuli nitems mods) := by
  refine ⟨rfl, fun n => rfl, ?_, ?_, hs _⟩
  · simp [emitTrialSpecs, List.flatMap]
  · exact length_flatten_map_mods mods _

/-- Claim C8 witness: builder facts at a concrete corpus with the
identity permutation as the injected shuffle. -/
theorem c8_trial_list_builder_witness :
    (∀ l : List TrialSpec, (id l).Perm l) ∧
    (truncateStimuli [gsA, gsB] none = [gsA, gsB] ∧
     (∀ n, truncateStimuli [gsA, gsB] (some n) = List.take n [gsA, gsB]) ∧
     emitTrialSpecs [gsA, gsB] (some 1) [Version.rank, Version.consec]
       = (truncateStimuli [gsA, gsB] (some 1)).flatMap
           (fun s => [Version.rank, Version.consec].map (mkTrialSpec s)) ∧
     (emitTrialSpecs [gsA, gsB] (some 1) [Version.rank, Version.consec]).length
       = (truncateStimuli [gsA, gsB] (some 1)).length * [Version.rank, Version.consec].length ∧
     (scheduledTrials [gsA, gsB] (some 1) [Version.rank, Version.consec] id).Perm
       (emitTrialSpecs [gsA, gsB] (some 1) [Version.rank, Version.consec])) :=
  ⟨fun l => List.Perm.refl l,
   c8_trial_list_builder [gsA, gsB] (some 1) [Version.rank, Version.consec] id
     (fun l => List.Perm.refl l)⟩

theorem blockRun_spec (specs : List TrialSpec) :
    ∀ (rs : List (List OptionData)) (s : BlockState),
      s.stimulusCounter + rs.length ≤ specs.length →
      blockRun specs s rs
        = some { stimulusCounter := s.stimulusCounter + rs.length,
                 data := s.data
                   ++ List.zipWith mkTrialEntry (specs.drop s.stimulusCounter) rs }
  | [], s, _ => by simp [blockRun]
  | r :: rest, s, h => by
      have hc : s.stimulusCounter < specs.length := by
        simp only [List.length_cons] at h
        omega
      have hget : specs.get? s.stimulusCounter = some (specs.get ⟨s.stimulusCounter, hc⟩) :=
        List.get?_eq_get hc
      have hdrop : specs.drop s.stimulusCounter
          = specs.get ⟨s.stimulusCounter, hc⟩ :: specs.drop (s.stimulusCounter + 1) :=
        List.drop_eq_get_cons hc
      have hrec := blockRun_spec specs rest
        { stimulusCounter := s.stimulusCounter + 1,
          data := s.data ++ [mkTrialEntry (specs.get ⟨s.stimulusCounter, hc⟩) r] }
        (by simp at h ⊢; omega)
      simp only [blockRun, blockStep, hget]
      rw [hrec, hdrop]
      simp only [List.zipWith_cons_cons, List.length_cons, Option.some.injEq,
                 BlockState.mk.injEq]
      exact ⟨by omega, by simp⟩

/-- Claim C4: the sequencer's advance appends the completed trial's
record and increments the cursor; running it over one response per
scheduled trial yields one record per trial in trial order, the
completion payload is delivered exactly once the cursor reaches the
trial-list length and carries the full sequence, no further trial can be
scheduled afterwards, and no payload is delivered before that point. -/
theorem c4_sequencer_advance_and_completion (specs : List TrialSpec)
    (rs : List (List OptionData)) (h : rs.length = specs.length) :
    ∃ final, blockRun specs blockInit rs = some final ∧
      final.data = List.zipWith mkTrialEntry specs rs ∧
      final.data.length = specs.length ∧
      blockPayload specs final = some (List.zipWith mkTrialEntry specs rs) ∧
      (∀ resp, blockStep specs final resp = none) ∧
      (∀ n, n < rs.length →
        ∃ mid, blockRun specs blockInit (rs.take n) = some mid ∧
          blockPayload specs mid = none) := by
  have hrun := blockRun_spec specs rs blockInit (by simp [blockInit, h])
  refine ⟨_, hrun, by simp [blockInit], ?_, ?_, ?_, ?_⟩
  · simp [blockInit, List.length_zipWith, h]
  · simp [blockPayload, blockInit, h]
  · intro resp
    simp [blockStep, blockInit, h, List.get?_eq_none]
  · intro n hn
    have htake := blockRun_spec specs (rs.take n) blockInit
      (by simp [blockInit]; omega)
    refine ⟨_, htake, ?_⟩
    have hlt : n < specs.length := by omega
    simp [blockPayload, blockInit, List.length_take]
    omega

/-- Claim C4 witness: a two-trial schedule run to completion. -/
theorem c4_sequencer_witness :
    ([[], []] : List (List OptionData)).length
        = [mkTrialSpec gsA Version.rank, mkTrialSpec gsA Version.consec].length ∧
    (∃ final,
      blockRun [mkTrialSpec gsA Version.rank, mkTrialSpec gsA Version.consec]
          blockInit [[], []] = some final ∧
      final.data = List.zipWith mkTrialEntry
          [mkTrialSpec gsA Version.rank, mkTrialSpec gsA Version.consec] [[], []] ∧
      final.data.length
        = [mkTrialSpec gsA Version.rank, mkTrialSpec gsA Version.consec].length ∧
      blockPayload [mkTrialSpec gsA Version.rank, mkTrialSpec gsA Version.consec] final
        = some (List.zipWith mkTrialEntry
            [mkTrialSpec gsA Version.rank, mkTrialSpec gsA Version.consec] [[], []]) ∧
      (∀ resp, blockStep [mkTrialSpec gsA Version.rank, mkTrialSpec gsA Version.consec]
          final resp = none) ∧
      (∀ n, n < ([[], []] : List (List OptionData)).length →
        ∃ mid, blockRun [mkTrialSpec gsA Version.rank, mkTrialSpec gsA Version.consec]
            blockInit (([[], []] : List (List OptionData)).take n) = some mid ∧
          blockPayload [mkTrialSpec gsA Version.rank, mkTrialSpec gsA Version.consec] mid
            = none)) :=
  ⟨rfl, c4_sequencer_advance_and_completion
    [mkTrialSpec gsA Version.rank, mkTrialSpec gsA Version.consec] [[], []] rfl⟩

theorem extendLookup_nil_right : ∀ o : Option (List OptionInfo), extendLookup o [] = o
  | some os => by simp [extendLookup]
  | none => rfl

theorem extendLookup_cons (L : Option (List OptionInfo)) (x : OptionInfo)
    (xs : List OptionInfo) :
    extendLookup (extendLookup L [x]) xs = extendLookup L (x :: xs) := by
  cases L with
  | some os => cases xs <;> simp [extendLookup]
  | none => cases xs <;> simp [extendLookup]

theorem groupKey_mkSingletonGroup (r : CSVRow) :
    groupKey (mkSingletonGroup r) = rowKey r := rfl

theorem addRow_cons (g : GroupedStimulus) (gs : List GroupedStimulus) (r : CSVRow) :
    addRow (g :: gs) r
      = if groupKey g = rowKey r then
          { g with options := g.options ++ [mkOptionInfo r] } :: gs
        else g :: addRow gs r := rfl

theorem lookupGroup_cons_pos (g : GroupedStimulus) (gs : List GroupedStimulus)
    (k : String × Int) (h : groupKey g = k) :
    lookupGroup (g :: gs) k = some g.options := by
  unfold lookupGroup
  rw [List.find?_cons_of_pos _ (by simp [h])]
  rfl

theorem lookupGroup_cons_neg (g : GroupedStimulus) (gs : List GroupedStimulus)
    (k : String × Int) (h : groupKey g ≠ k) :
    lookupGroup (g :: gs) k = lookupGroup gs k := by
  unfold lookupGroup
  rw [List.find?_cons_of_neg _ (by simp [h])]

theorem lookupGroup_addRow : ∀ (acc : List GroupedStimulus) (r : CSVRow) (k : String × Int),
    lookupGroup (addRow acc r) k
      = if rowKey r = k then extendLookup (lookupGroup acc k) [mkOptionInfo r]
        else lookupGroup acc k
  | [], r, k => by
      by_cases h : rowKey r = k
      · rw [if_pos h]
        show lookupGroup [mkSingletonGroup r] k = extendLookup (lookupGroup [] k) [mkOptionInfo r]
        rw [lookupGroup_cons_pos _ _ _ ((groupKey_mkSingletonGroup r).trans h)]
        rfl
      · rw [if_neg h]
        show lookupGroup [mkSingletonGroup r] k = lookupGroup [] k
        rw [lookupGroup_cons_neg _ _ _ (fun hh => h ((groupKey_mkSingletonGroup r).symm.trans hh))]
  | g :: gs, r, k => by
      by_cases hg : groupKey g = rowKey r
      · have haddr : addRow (g :: gs) r
            = { g with options := g.options ++ [mkOptionInfo r] } :: gs := by
          rw [addRow_cons, if_pos hg]
        rw [haddr]
        by_cases hk : groupKey g = k
        · have hrk : rowKey r = k := hg.symm.trans hk
          rw [if_pos hrk,
              lookupGroup_cons_pos _ _ _
                (show groupKey { g with options := g.options ++ [mkOptionInfo r] } = k from hk),
              lookupGroup_cons_pos g gs k hk]
          rfl
        · have hrk : rowKey r ≠ k := fun hh => hk (hg.trans hh)
          rw [if_neg hrk,
              lookupGroup_cons_neg _ _ _
                (show groupKey { g with options := g.options ++ [mkOptionInfo r] } ≠ k from hk),
              lookupGroup_cons_neg g gs k hk]
      · have haddr : addRow (g :: gs) r = g :: addRow gs r := by
          rw [addRow_cons, if_neg hg]
        rw [haddr]
        by_cases hk : groupKey g = k
        · have hrk : rowKey r ≠ k := fun hh => hg (hk.trans hh.symm)
          rw [if_neg hrk, lookupGroup_cons_pos _ _ _ hk, lookupGroup_cons_pos g gs k hk]
        · rw [lookupGroup_cons_neg _ _ _ hk, lookupGroup_cons_neg g gs k hk]
          exact lookupGroup_addRow gs r k

theorem keys_addRow : ∀ (acc : List GroupedStimulus) (r : CSVRow),
    (addRow acc r).map groupKey
      = if rowKey r ∈ acc.map groupKey then acc.map groupKey
        else acc.map groupKey ++ [rowKey r]
  | [], r => by simp [addRow, groupKey_mkSingletonGroup]
  | g :: gs, r => by
      rw [addRow_cons]
      by_cases hg : groupKey g = rowKey r
      · rw [if_pos hg,
            if_pos (show rowKey r ∈ (g :: gs).map groupKey by
              rw [List.map_cons, hg]
              exact List.mem_cons_self _ _)]
        simp only [List.map_cons]
        rfl
      · rw [if_neg hg, List.map_cons, List.map_cons, keys_addRow gs r]
        by_cases hmem : rowKey r ∈ gs.map groupKey
        · rw [if_pos hmem, if_pos (List.mem_cons_of_mem _ hmem)]
        · have hnotin : rowKey r ∉ groupKey g :: gs.map groupKey := by
            intro hin
            rcases List.mem_cons.mp hin with hh | hh
            · exact hg hh.symm
            · exact hmem hh
          rw [if_neg hmem, if_neg hnotin, List.cons_append]

theorem keys_foldl : ∀ (rows : List CSVRow) (acc : List GroupedStimulus),
    (rows.foldl addRow acc).map groupKey
      = firstSeenFrom (acc.map groupKey) (rows.map rowKey)
  | [], acc => rfl
  | r :: rows, acc => by
      have ihyp := keys_foldl rows (addRow acc r)
      simp only [List.foldl_cons, List.map_cons]
      rw [ihyp, keys_addRow]
      rfl

theorem nodup_firstSeenFrom : ∀ (l init : List (String × Int)),
    init.Nodup → (firstSeenFrom init l).Nodup
  | [], _, h => h
  | k :: l, init, h => by
      have hstep : (if k ∈ init then init else init ++ [k]).Nodup := by
        by_cases hm : k ∈ init
        · simpa [hm]
        · simp [hm, List.nodup_append, h]
      have := nodup_firstSeenFrom l (if k ∈ init then init else init ++ [k]) hstep
      simpa [firstSeenFrom, List.foldl_cons] using this

theorem addRow_of_not_mem : ∀ (acc : List GroupedStimulus) (r : CSVRow),
    rowKey r ∉ acc.map groupKey → addRow acc r = acc ++ [mkSingletonGroup r]
  | [], _, _ => rfl
  | g :: gs, r, h => by
      have hg : groupKey g ≠ rowKey r := by
        intro hh
        exact h (by simp [hh.symm])
      have htail : rowKey r ∉ gs.map groupKey := fun hm => h (by simp [hm])
      simp [addRow, hg, addRow_of_not_mem gs r htail]

theorem lookupGroup_foldl : ∀ (rows : List CSVRow) (acc : List GroupedStimulus)
    (k : String × Int),
    lookupGroup (rows.foldl addRow acc) k
      = extendLookup (lookupGroup acc k)
          ((rows.filter fun r => decide (rowKey r = k)).map mkOptionInfo)
  | [], acc, k => (extendLookup_nil_right _).symm
  | r :: rows, acc, k => by
      have ihyp := lookupGroup_foldl rows (addRow acc r) k
      by_cases hrk : rowKey r = k
      · have hfil : (r :: rows).filter (fun x => decide (rowKey x = k))
            = r :: rows.filter (fun x => decide (rowKey x = k)) := by
          simp [List.filter_cons, hrk]
        rw [show (r :: rows).foldl addRow acc = rows.foldl addRow (addRow acc r) from rfl,
            ihyp, lookupGroup_addRow, if_pos hrk, extendLookup_cons, hfil, List.map_cons]
      · have hfil : (r :: rows).filter (fun x => decide (rowKey x = k))
            = rows.filter (fun x => decide (rowKey x = k)) := by
          simp [List.filter_cons, hrk]
        rw [show (r :: rows).foldl addRow acc = rows.foldl addRow (addRow acc r) from rfl,
            ihyp, lookupGroup_addRow, if_neg hrk, hfil]

/-- Claim C9: the grouper places every input row in exactly one
GroupedStimulus keyed by (category, stimulusId): the group keys are
duplicate free and appear in first-seen order, the options stored under
a key are exactly the options of the rows carrying that key in input
order (nothing dropped, nothing duplicated), a row whose key is new
appends a fresh singleton group, and a row whose key exists appends its
option to that group. -/
theorem c9_grouper_correct (rows : List CSVRow) (k : String × Int) :
    ((groupRows rows).map groupKey).Nodup ∧
    (groupRows rows).map groupKey = firstSeen (rows.map rowKey) ∧
    lookupGroup (groupRows rows) k
      = extendLookup none ((rows.filter fun r => decide (rowKey r = k)).map mkOptionInfo) ∧
    ((rows.filter fun r => decide (rowKey r = k)) = [] →
       lookupGroup (groupRows rows) k = none) ∧
    (∀ r0 rrest, (rows.filter fun r => decide (rowKey r = k)) = r0 :: rrest →
       lookupGroup (groupRows rows) k = some ((r0 :: rrest).map mkOptionInfo)) ∧
    (∀ acc r, rowKey r ∉ acc.map groupKey → addRow acc r = acc ++ [mkSingletonGroup r]) ∧
    (∀ acc r, lookupGroup (addRow acc r) (rowKey r)
       = extendLookup (lookupGroup acc (rowKey r)) [mkOptionInfo r]) := by
  have hmain := lookupGroup_foldl rows [] k
  refine ⟨?_, ?_, ?_, ?_, ?_, addRow_of_not_mem, ?_⟩
  · rw [show groupRows rows = rows.foldl addRow [] from rfl, keys_foldl]
    exact nodup_firstSeenFrom _ _ List.nodup_nil
  · rw [show groupRows rows = rows.foldl addRow [] from rfl, keys_foldl]
    rfl
  · exact hmain
  · intro hemp
    rw [show groupRows rows = rows.foldl addRow [] from rfl, lookupGroup_foldl, hemp]
    rfl
  · intro r0 rrest heq
    rw [show groupRows rows = rows.foldl addRow [] from rfl, lookupGroup_foldl, heq]
    rfl
  · intro acc r
    rw [lookupGroup_addRow, if_pos rfl]

/-- Claim C9 witness: the grouper facts at a concrete interleaved row
list and the key of category a, stimulus 1. -/
theorem c9_grouper_correct_witness :
    ((groupRows rowsEx).map groupKey).Nodup ∧
    (groupRows rowsEx).map groupKey = firstSeen (rowsEx.map rowKey) ∧
    lookupGroup (groupRows rowsEx) ("a", 1)
      = extendLookup none
          ((rowsEx.filter fun r => decide (rowKey r = ("a", 1))).map mkOptionInfo) ∧
    ((rowsEx.filter fun r => decide (rowKey r = ("a", 1))) = [] →
       lookupGroup (groupRows rowsEx) ("a", 1) = none) ∧
    (∀ r0 rrest, (rowsEx.filter fun r => decide (rowKey r = ("a", 1))) = r0 :: rrest →
       lookupGroup (groupRows rowsEx) ("a", 1) = some ((r0 :: rrest).map mkOptionInfo)) ∧
    (∀ acc r, rowKey r ∉ acc.map groupKey → addRow acc r = acc ++ [mkSingletonGroup r]) ∧
    (∀ acc r, lookupGroup (addRow acc r) (rowKey r)
       = extendLookup (lookupGroup acc (rowKey r)) [mkOptionInfo r]) :=
  c9_grouper_correct rowsEx ("a", 1)

theorem appendPickAtIdx_length : ∀ (l : List OptionData) (i : Nat) (pe : PickEvent),
    (appendPickAtIdx l i pe).length = l.length
  | [], _, _ => rfl
  | _ :: _, 0, _ => rfl
  | d :: ds, Nat.succ i, pe => by
      simp only [appendPickAtIdx, List.length_cons, appendPickAtIdx_length ds i pe]

theorem get?_appendPickAtIdx_ne : ∀ (l : List OptionData) (i j : Nat) (pe : PickEvent),
    j ≠ i → (appendPickAtIdx l i pe).get? j = l.get? j
  | [], _, _, _, _ => rfl
  | _ :: _, 0, 0, _, h => absurd rfl h
  | _ :: _, 0, Nat.succ _, _, _ => rfl
  | _ :: _, Nat.succ _, 0, _, _ => rfl
  | d :: ds, Nat.succ i, Nat.succ j, pe, h =>
      get?_appendPickAtIdx_ne ds i j pe fun hh => h (by rw [hh])

theorem get?_appendPickAtIdx_eq : ∀ (l : List OptionData) (i : Nat) (pe : PickEvent)
    (d : OptionData), l.get? i = some d →
    (appendPickAtIdx l i pe).get? i = some { d with picked := d.picked ++ [pe] }
  | [], i, _, _, h => by cases i <;> exact Option.noConfusion h
  | d0 :: ds, 0, pe, d, h => by
      cases h
      rfl
  | d0 :: ds, Nat.succ i, pe, d, h => get?_appendPickAtIdx_eq ds i pe d h

theorem choiceAllowed_iff (v : Version) (s : TableState) (i : Nat) :
    choiceAllowed v s i = true ↔
      s.isPauseScreen = false ∧ s.nSelection ≤ s.data.length ∧
      ∃ d, s.data.get? i = some d ∧ (d.picked = [] ∨ v = Version.rank) := by
  unfold choiceAllowed
  cases hget : s.data.get? i with
  | none => simp
  | some d =>
      simp only [Bool.and_eq_true, Bool.or_eq_true, Bool.not_eq_true',
                 decide_eq_true_eq, Option.some.injEq]
      constructor
      · rintro ⟨⟨hp, hn⟩, hd⟩
        exact ⟨hp, hn, d, rfl, hd⟩
      · rintro ⟨hp, hn, d2, heq, hd⟩
        cases heq
        exact ⟨⟨hp, hn⟩, hd⟩

theorem consecInv_init (t0 : Nat) (os : List OptionInfo) :
    consecInv os.length [] (tableInit t0 os) := by
  refine ⟨rfl, by simp [tableInit], List.nodup_nil, by simp, ?_, by simp⟩
  intro i hi _
  have hget : (tableInit t0 os).data.get? i
      = (os.get? i).map fun s =>
          ({ option := s.option, eyewitness1 := s.eyewitness1,
             eyewitness2 := s.eyewitness2, picked := [] } : OptionData) := by
    simp [tableInit, List.get?_map]
  rw [picksAt, hget, List.get?_eq_get hi]
  rfl

theorem consecInv_step (N : Nat) (cs : List Nat) (s s1 : TableState) (a : TAction)
    (hinv : consecInv N cs s) (hstep : tableStep Version.consec s a = some s1) :
    consecInv N (cs ++ chosen [a]) s1 := by
  obtain ⟨h1, h2, h3, h4, h5, h6⟩ := hinv
  cases a with
  | screenClick t =>
      by_cases hp : s.isPauseScreen
      · simp only [tableStep, if_pos hp, Option.some.injEq] at hstep
        subst hstep
        rw [show chosen [TAction.screenClick t] = [] from rfl, List.append_nil]
        exact ⟨h1, h2, h3, h4, h5, h6⟩
      · simp [tableStep, hp] at hstep
  | choiceClick i t =>
      by_cases hca : choiceAllowed Version.consec s i = true
      · simp only [tableStep, if_pos hca, Option.some.injEq] at hstep
        subst hstep
        obtain ⟨hp, hn, d, hget, hd⟩ := (choiceAllowed_iff Version.consec s i).mp hca
        have hdpick : d.picked = [] := by
          rcases hd with hd | hd
          · exact hd
          · exact absurd hd (by simp)
        have hiN : i < N := by
          obtain ⟨hlt, -⟩ := List.get?_eq_some.mp hget
          omega
        have hnotin : i ∉ cs := by
          intro hmem
          obtain ⟨k, hk⟩ := List.get?_of_mem hmem
          obtain ⟨t2, ht2⟩ := h6 k i hk
          rw [picksAt, hget] at ht2
          simp [hdpick] at ht2
        have hpicks : ∀ j, j ≠ i →
            picksAt { isPauseScreen :=
                        decide (Version.consec = Version.rank)
                          && decide (s.nSelection + 1 ≤ s.data.length),
                      startedTimestamp := t,
                      data := appendPickAtIdx s.data i
                        { num := s.nSelection, time := t - s.startedTimestamp },
                      nSelection := s.nSelection + 1 } j = picksAt s j := by
          intro j hj
          simp only [picksAt]
          rw [get?_appendPickAtIdx_ne s.data i j _ hj]
        refine ⟨?_, ?_, ?_, ?_, ?_, ?_⟩
        · simp only [chosen, List.length_append, List.length_cons, List.length_nil]
          omega
        · simpa [appendPickAtIdx_length] using h2
        · simp only [chosen]
          exact List.Nodup.append h3 (List.nodup_singleton i)
            (List.disjoint_singleton.mpr hnotin)
        · intro c hc
          rcases List.mem_append.mp hc with hc | hc
          · exact h4 c hc
          · simp only [chosen, List.mem_singleton] at hc
            exact hc ▸ hiN
        · intro j hj hjnot
          have hjcs : j ∉ cs := fun hm => hjnot (List.mem_append.mpr (Or.inl hm))
          have hji : j ≠ i := by
            intro hh
            exact hjnot (List.mem_append.mpr (Or.inr (by simp [chosen, hh])))
          rw [hpicks j hji]
          exact h5 j hj hjcs
        · intro k j hk
          have hklen : k < cs.length + 1 := by
            obtain ⟨hlt, -⟩ := List.get?_eq_some.mp hk
            simpa [chosen] using hlt
          rcases Nat.lt_or_ge k cs.length with hlt | hge
          · have hkcs : cs.get? k = some j := by
              rw [← List.get?_append hlt]
              exact hk
            have hjmem : j ∈ cs := List.get?_mem hkcs
            have hji : j ≠ i := fun hh => hnotin (hh ▸ hjmem)
            obtain ⟨t2, ht2⟩ := h6 k j hkcs
            exact ⟨t2, by rw [hpicks j hji]; exact ht2⟩
          · have hkeq : k = cs.length := by omega
            subst hkeq
            have : (cs ++ chosen [TAction.choiceClick i t]).get? cs.length = some i := by
              simpa [chosen] using List.get?_concat_length cs i
            rw [this] at hk
            cases hk
            refine ⟨t - s.startedTimestamp, ?_⟩
            simp only [picksAt]
            rw [get?_appendPickAtIdx_eq s.data i _ d hget]
            simp [hdpick, h1]
      · simp [tableStep, hca] at hstep

theorem consecInv_run : ∀ (acts : List TAction) (N : Nat) (cs : List Nat)
    (s s1 : TableState), consecInv N cs s → runTable Version.consec s acts = some s1 →
    consecInv N (cs ++ chosen acts) s1
  | [], N, cs, s, s1, hinv, hrun => by
      cases hrun
      simpa [chosen] using hinv
  | a :: rest, N, cs, s, s1, hinv, hrun => by
      simp only [runTable] at hrun
      cases hstep : tableStep Version.consec s a with
      | none => rw [hstep] at hrun; exact Option.noConfusion hrun
      | some s2 =>
          rw [hstep] at hrun
          have h2 := consecInv_step N cs s s2 a hinv hstep
          have h3 := consecInv_run rest N (cs ++ chosen [a]) s2 s1 h2 hrun
          cases a <;> simpa [chosen, List.append_assoc] using h3

theorem consec_complete_perm (N : Nat) (cs : List Nat) (s : TableState)
    (hinv : consecInv N cs s) (hc : tableComplete s) :
    cs.length = N ∧ ∀ i, i < N → i ∈ cs := by
  obtain ⟨h1, h2, h3, h4, -, -⟩ := hinv
  have hge : N ≤ cs.length := by
    unfold tableComplete at hc
    omega
  have hsub : cs.toFinset ⊆ Finset.range N := by
    intro x hx
    rw [List.mem_toFinset] at hx
    exact Finset.mem_range.mpr (h4 x hx)
  have hle : cs.length ≤ N := by
    have hcard := Finset.card_le_card hsub
    rwa [List.toFinset_card_of_nodup h3, Finset.card_range] at hcard
  have hlen : cs.length = N := le_antisymm hle hge
  refine ⟨hlen, fun i hi => ?_⟩
  have hset : cs.toFinset = Finset.range N :=
    Finset.eq_of_subset_of_card_le hsub
      (by rw [List.toFinset_card_of_nodup h3, Finset.card_range, hlen])
  rw [← List.mem_toFinset, hset]
  exact Finset.mem_range.mpr hi

/-- Claim C10: a consec trial completes only once the selection counter
exceeds the option count, i.e. after exactly N committed picks; the
clicked rows are distinct and exhaust the options (the control of a
picked option is withheld, so no row can be clicked twice), every option
ends with exactly one PickEvent, and the row clicked k-th holds rank k:
the assigned ranks are exactly 1..N in click order. -/
theorem c10_consec_completion (os : List OptionInfo) (t0 : Nat) (acts : List TAction)
    (s : TableState)
    (hrun : runTable Version.consec (tableInit t0 os) acts = some s)
    (hc : tableComplete s) :
    (chosen acts).length = os.length ∧
    (chosen acts).Nodup ∧
    (∀ i, i < os.length → i ∈ chosen acts) ∧
    (∀ k j, (chosen acts).get? k = some j → ∃ t, picksAt s j = some [⟨k + 1, t⟩]) ∧
    (∀ i, i < os.length → ∃ l, picksAt s i = some l ∧ l.length = 1) := by
  have hinv := consecInv_run acts os.length [] (tableInit t0 os) s (consecInv_init t0 os) hrun
  rw [List.nil_append] at hinv
  obtain ⟨hlen, hmem⟩ := consec_complete_perm os.length (chosen acts) s hinv hc
  refine ⟨hlen, hinv.2.2.1, hmem, hinv.2.2.2.2.2, ?_⟩
  intro i hi
  obtain ⟨k, hk⟩ := List.get?_of_mem (hmem i hi)
  obtain ⟨t, ht⟩ := hinv.2.2.2.2.2 k i hk
  exact ⟨_, ht, rfl⟩

/-- Claim C10 witness: the completed two-option consec run that picks
row 0 and then row 1. -/
theorem c10_consec_completion_witness :
    (runTable Version.consec (tableInit 0 osTwo)
        [.screenClick 1, .choiceClick 0 2, .choiceClick 1 5] = some consecFinal ∧
     tableComplete consecFinal) ∧
    ((chosen [TAction.screenClick 1, TAction.choiceClick 0 2,
        TAction.choiceClick 1 5]).length = osTwo.length ∧
     (chosen [TAction.screenClick 1, TAction.choiceClick 0 2,
        TAction.choiceClick 1 5]).Nodup ∧
     (∀ i, i < osTwo.length → i ∈ chosen [TAction.screenClick 1, TAction.choiceClick 0 2,
        TAction.choiceClick 1 5]) ∧
     (∀ k j, (chosen [TAction.screenClick 1, TAction.choiceClick 0 2,
        TAction.choiceClick 1 5]).get? k = some j →
        ∃ t, picksAt consecFinal j = some [⟨k + 1, t⟩]) ∧
     (∀ i, i < osTwo.length → ∃ l, picksAt consecFinal i = some l ∧ l.length = 1)) :=
  ⟨⟨by decide, by decide⟩,
   c10_consec_completion osTwo 0
     [.screenClick 1, .choiceClick 0 2, .choiceClick 1 5] consecFinal
     (by decide) (by decide)⟩

/-- Claim C2 counterexample: in a two-option consec trial a single
pointer action on an option records its PickEvent (rank 1, elapsed time
since leaving the pause gate) but does not complete the trial: the
completion condition nSelection > data.length still fails. -/
theorem c2_single_action_does_not_complete :
    ∃ s, runTable Version.consec (tableInit 0 osTwo)
        [.screenClick 1, .choiceClick 0 3] = some s ∧
      picksAt s 0 = some [⟨1, 2⟩] ∧ ¬ tableComplete s := by
  refine ⟨⟨false, 3, [⟨1, 0, 0, [⟨1, 2⟩]⟩, ⟨2, 0, 0, []⟩], 2⟩, by decide, by decide, by decide⟩

/-- Claim C2 as amended: in a consec trial a pointer action on an
unpicked option appends to it one PickEvent whose rank is the current
selection counter and whose time is the elapsed time since the last
timer reset, and the trial becomes complete only when the incremented
counter exceeds the option count — so after a single action only for a
one-option trial; in every completed consec trial every option holds
exactly one PickEvent and exactly one option holds the rank-1 event. -/
theorem c2_consec_pick_semantics (os : List OptionInfo) (t0 : Nat) (acts : List TAction)
    (s : TableState)
    (hrun : runTable Version.consec (tableInit t0 os) acts = some s) :
    (∀ i t s1, tableStep Version.consec s (.choiceClick i t) = some s1 →
       s1.data = appendPickAtIdx s.data i
         { num := s.nSelection, time := t - s.startedTimestamp } ∧
       s1.nSelection = s.nSelection + 1 ∧
       s1.data.length = s.data.length ∧
       (tableComplete s1 ↔ s.data.length < s.nSelection + 1)) ∧
    (tableComplete s →
       (∀ i, i < os.length → ∃ l, picksAt s i = some l ∧ l.length = 1) ∧
       (0 < os.length →
         ∃! i, i < os.length ∧ ∃ t, picksAt s i = some [⟨1, t⟩])) := by
  have hinv := consecInv_run acts os.length [] (tableInit t0 os) s (consecInv_init t0 os) hrun
  rw [List.nil_append] at hinv
  constructor
  · intro i t s1 hstep
    by_cases hca : choiceAllowed Version.consec s i = true
    · simp only [tableStep, if_pos hca, Option.some.injEq] at hstep
      subst hstep
      refine ⟨rfl, rfl, appendPickAtIdx_length s.data i _, ?_⟩
      unfold tableComplete
      rw [appendPickAtIdx_length s.data i _]
    · simp [tableStep, hca] at hstep
  · intro hcomp
    obtain ⟨hlen, hmem⟩ := consec_complete_perm os.length (chosen acts) s hinv hcomp
    refine ⟨?_, ?_⟩
    · intro i hi
      obtain ⟨k, hk⟩ := List.get?_of_mem (hmem i hi)
      obtain ⟨t, ht⟩ := hinv.2.2.2.2.2 k i hk
      exact ⟨_, ht, rfl⟩
    · intro hpos
      obtain ⟨j0, cs2, hcs⟩ : ∃ j0 cs2, chosen acts = j0 :: cs2 := by
        cases hx : chosen acts with
        | nil => rw [hx] at hlen; simp at hlen; omega
        | cons a b => exact ⟨a, b, rfl⟩
      have hget0 : (chosen acts).get? 0 = some j0 := by rw [hcs]; rfl
      obtain ⟨t, ht⟩ := hinv.2.2.2.2.2 0 j0 hget0
      have hj0N : j0 < os.length :=
        hinv.2.2.2.1 j0 (by rw [hcs]; exact List.mem_cons_self _ _)
      refine ⟨j0, ⟨hj0N, t, by simpa using ht⟩, ?_⟩
      rintro i2 ⟨hi2N, t2, ht2⟩
      obtain ⟨k, hk⟩ := List.get?_of_mem (hmem i2 hi2N)
      obtain ⟨t3, ht3⟩ := hinv.2.2.2.2.2 k i2 hk
      have heq := ht3.symm.trans ht2
      simp only [Option.some.injEq, List.cons.injEq, PickEvent.mk.injEq, and_true] at heq
      have hk0 : k = 0 := by omega
      rw [hk0, hget0] at hk
      exact (Option.some.inj hk).symm

/-- Claim C2 witness: the amended semantics at the completed two-option
consec run. -/
theorem c2_consec_pick_semantics_witness :
    (runTable Version.consec (tableInit 0 osTwo)
        [.screenClick 1, .choiceClick 0 2, .choiceClick 1 5] = some consecFinal) ∧
    ((∀ i t s1, tableStep Version.consec consecFinal (.choiceClick i t) = some s1 →
       s1.data = appendPickAtIdx consecFinal.data i
         { num := consecFinal.nSelection, time := t - consecFinal.startedTimestamp } ∧
       s1.nSelection = consecFinal.nSelection + 1 ∧
       s1.data.length = consecFinal.data.length ∧
       (tableComplete s1 ↔ consecFinal.data.length < consecFinal.nSelection + 1)) ∧
     (tableComplete consecFinal →
       (∀ i, i < osTwo.length → ∃ l, picksAt consecFinal i = some l ∧ l.length = 1) ∧
       (0 < osTwo.length →
         ∃! i, i < osTwo.length ∧ ∃ t, picksAt consecFinal i = some [⟨1, t⟩]))) :=
  ⟨by decide,
   c2_consec_pick_semantics osTwo 0
     [.screenClick 1, .choiceClick 0 2, .choiceClick 1 5] consecFinal (by decide)⟩

/-- Claim C1 (code_bug evidence): a rank trial can complete without the
rank assignment being a bijection between options and 1..N.  The choice
control of an already picked row stays rendered in rank trials
(row.picked.length === 0 || version === 'rank'), so clicking option 0
twice is an accepted run: the machine completes with option 0 holding
ranks 1 and 2 and option 1 holding no pick at all. -/
theorem c1_rank_double_pick_breaks_bijection :
    runTable Version.rank (tableInit 0 osTwo)
        [.screenClick 1, .choiceClick 0 2, .screenClick 3, .choiceClick 0 4]
      = some rankFinal ∧
    tableComplete rankFinal ∧
    picksAt rankFinal 0 = some [⟨1, 1⟩, ⟨2, 1⟩] ∧
    picksAt rankFinal 1 = some [] ∧
    ¬ (∀ i, i < rankFinal.data.length →
         ∃ l, picksAt rankFinal i = some l ∧ l.length = 1) := by
  refine ⟨by decide, by decide, by decide, by decide, ?_⟩
  intro h
  obtain ⟨l, hl, hlen⟩ := h 1 (by decide)
  rw [show picksAt rankFinal 1 = some [] from by decide] at hl
  obtain rfl : l = [] := (Option.some.inj hl).symm
  simp at hlen

/-- Claim C3 (code_bug evidence): committing a pick on an already picked
option in a rank trial is not rejected: from a reachable rank state in
which option 0 already holds its rank-1 PickEvent, the choice commit on
option 0 is accepted and appends a second PickEvent to the same
option. -/
theorem c3_repick_appends_event :
    runTable Version.rank (tableInit 0 osTwo)
        [.screenClick 1, .choiceClick 0 2, .screenClick 3] = some rankMid ∧
    picksAt rankMid 0 = some [⟨1, 1⟩] ∧
    tableStep Version.rank rankMid (.choiceClick 0 4) = some rankFinal ∧
    picksAt rankFinal 0 = some [⟨1, 1⟩, ⟨2, 1⟩] :=
  ⟨by decide, by decide, by decide, by decide⟩

theorem spliceInsert_perm (x : Nat) : ∀ (n : Nat) (l : List Nat),
    (spliceInsert x n l).Perm (x :: l)
  | n, [] => by cases n <;> exact List.Perm.refl _
  | 0, a :: t => List.Perm.refl _
  | Nat.succ n, a :: t =>
      ((spliceInsert_perm x n t).cons a).trans (List.Perm.swap x a t)

theorem get?_eraseIdx_perm : ∀ (l : List Nat) (i : Nat) (x : Nat),
    l.get? i = some x → l.Perm (x :: l.eraseIdx i)
  | [], i, x, h => by cases i <;> exact Option.noConfusion h
  | a :: t, 0, x, h => by
      cases h
      exact List.Perm.refl _
  | a :: t, Nat.succ i, x, h => by
      have hrec := get?_eraseIdx_perm t i x h
      exact List.Perm.trans (hrec.cons a) (List.Perm.swap x a (t.eraseIdx i))

theorem arrayMove_perm (l : List Nat) (i j : Nat) : (arrayMove l i j).Perm l := by
  unfold arrayMove
  cases hget : l.get? i with
  | none => exact List.Perm.refl l
  | some x =>
      exact (spliceInsert_perm x j _).trans (get?_eraseIdx_perm l i x hget).symm

theorem dnd_step_inv (data : List OptionData) (s s1 : DndState) (e : DndEvent)
    (hperm : s.items.Perm (data.map (·.option)))
    (hid : s.hasDragged = false → s.items = data.map (·.option))
    (hstep : dndStep data s e = some s1) :
    s1.items.Perm (data.map (·.option)) ∧
    (s1.hasDragged = false → s1.items = data.map (·.option)) := by
  cases e with
  | dragGesture a b =>
      simp only [dndStep] at hstep
      split at hstep
      · exact Option.noConfusion hstep
      split at hstep
      · exact Option.noConfusion hstep
      split at hstep
      · cases Option.some.inj hstep
        constructor
        · show (if a ≠ b then
                  arrayMove s.items (jsIndexOf s.items a) (jsIndexOf s.items b)
                else s.items).Perm _
          by_cases hab : a ≠ b
          · rw [if_pos hab]
            exact (arrayMove_perm _ _ _).trans hperm
          · rw [if_neg hab]
            exact hperm
        · intro hfd
          simp at hfd
      · exact Option.noConfusion hstep
  | confirmClick t =>
      simp only [dndStep] at hstep
      split at hstep
      · exact Option.noConfusion hstep
      split at hstep
      · exact Option.noConfusion hstep
      split at hstep
      · cases Option.some.inj hstep
        exact ⟨hperm, hid⟩
      · cases Option.some.inj hstep
        exact ⟨hperm, hid⟩
  | cancelClick =>
      simp only [dndStep] at hstep
      split at hstep
      · exact Option.noConfusion hstep
      split at hstep
      · cases Option.some.inj hstep
        exact ⟨hperm, hid⟩
      · exact Option.noConfusion hstep
  | continueClick t =>
      simp only [dndStep] at hstep
      split at hstep
      · exact Option.noConfusion hstep
      split at hstep
      · cases Option.some.inj hstep
        exact ⟨hperm, hid⟩
      · exact Option.noConfusion hstep

theorem dnd_run_inv : ∀ (evts : List DndEvent) (data : List OptionData) (s s1 : DndState),
    s.items.Perm (data.map (·.option)) →
    (s.hasDragged = false → s.items = data.map (·.option)) →
    dndRun data s evts = some s1 →
    s1.items.Perm (data.map (·.option)) ∧
    (s1.hasDragged = false → s1.items = data.map (·.option))
  | [], data, s, s1, hp, hi, hrun => by
      cases hrun
      exact ⟨hp, hi⟩
  | e :: rest, data, s, s1, hp, hi, hrun => by
      simp only [dndRun] at hrun
      cases hstep : dndStep data s e with
      | none => rw [hstep] at hrun; exact Option.noConfusion hrun
      | some s2 =>
          rw [hstep] at hrun
          obtain ⟨hp2, hi2⟩ := dnd_step_inv data s s2 e hp hi hstep
          exact dnd_run_inv rest data s2 s1 hp2 hi2 hrun

theorem pushPickForOption_map_option : ∀ (l : List OptionData) (oid : Nat) (pe : PickEvent),
    (pushPickForOption l oid pe).map (·.option) = l.map (·.option)
  | [], _, _ => rfl
  | d :: ds, oid, pe => by
      by_cases h : d.option = oid
      · simp [pushPickForOption, h]
      · simp [pushPickForOption, h, pushPickForOption_map_option ds oid pe]

theorem map_pick_untouched : ∀ (l : List OptionData) (oid : Nat) (pe : PickEvent),
    (∀ o ∈ l, o.option ≠ oid) →
    l.map (fun o => if o.option = oid then { o with picked := o.picked ++ [pe] } else o) = l
  | [], _, _, _ => rfl
  | d :: ds, oid, pe, h => by
      have hd : d.option ≠ oid := h d (List.mem_cons_self _ _)
      simp only [List.map_cons, if_neg hd]
      rw [map_pick_untouched ds oid pe fun o ho => h o (List.mem_cons_of_mem _ ho)]

theorem pushPickForOption_eq_map : ∀ (l : List OptionData) (oid : Nat) (pe : PickEvent),
    (l.map (·.option)).Nodup →
    pushPickForOption l oid pe
      = l.map (fun o => if o.option = oid then { o with picked := o.picked ++ [pe] } else o)
  | [], _, _, _ => rfl
  | d :: ds, oid, pe, h => by
      rw [List.map_cons] at h
      have hnd := List.nodup_cons.mp h
      by_cases hd : d.option = oid
      · simp only [pushPickForOption, if_pos hd, List.map_cons]
        congr 1
        refine (map_pick_untouched ds oid pe ?_).symm
        intro o ho hoo
        have hmm : o.option ∈ ds.map (·.option) := List.mem_map_of_mem (·.option) ho
        rw [hoo, ← hd] at hmm
        exact hnd.1 hmm
      · simp only [pushPickForOption, if_neg hd, List.map_cons]
        congr 1
        exact pushPickForOption_eq_map ds oid pe hnd.2

theorem jsIndexOf_cons (b a : Nat) (t : List Nat) :
    jsIndexOf (b :: t) a = if b = a then 0 else jsIndexOf t a + 1 := rfl

theorem submitPicksAux_spec (dur : Nat) : ∀ (items : List Nat) (data : List OptionData)
    (k : Nat), (data.map (·.option)).Nodup → items.Nodup →
    (submitPicksAux dur data items k).map (fun o => (o.option, o.picked))
      = data.map fun o =>
          (o.option,
           if o.option ∈ items then o.picked ++ [⟨k + jsIndexOf items o.option + 1, dur⟩]
           else o.picked)
  | [], data, k, _, _ => by simp [submitPicksAux]
  | oid :: rest, data, k, hnd, hni => by
      have hcons := List.nodup_cons.mp hni
      have hrec := submitPicksAux_spec dur rest
        (pushPickForOption data oid ⟨k + 1, dur⟩) (k + 1)
        (by rw [pushPickForOption_map_option]; exact hnd) hcons.2
      rw [show submitPicksAux dur data (oid :: rest) k
            = submitPicksAux dur (pushPickForOption data oid ⟨k + 1, dur⟩) rest (k + 1)
          from rfl, hrec, pushPickForOption_eq_map data oid ⟨k + 1, dur⟩ hnd, List.map_map]
      refine List.map_congr_left ?_
      intro o _
      simp only [Function.comp_apply]
      by_cases ho : o.option = oid
      · have hnotr : o.option ∉ rest := by rw [ho]; exact hcons.1
        have hcond : o.option ∈ oid :: rest := by
          rw [ho]
          exact List.mem_cons_self _ _
        rw [if_pos ho]
        show (o.option,
            if o.option ∈ rest then
              (o.picked ++ [⟨k + 1, dur⟩]) ++ [⟨k + 1 + jsIndexOf rest o.option + 1, dur⟩]
            else o.picked ++ [⟨k + 1, dur⟩])
          = (o.option,
            if o.option ∈ oid :: rest then
              o.picked ++ [⟨k + jsIndexOf (oid :: rest) o.option + 1, dur⟩]
            else o.picked)
        rw [if_neg hnotr, if_pos hcond, jsIndexOf_cons, if_pos ho.symm, Nat.add_zero]
      · rw [if_neg ho]
        show (o.option,
            if o.option ∈ rest then
              o.picked ++ [⟨k + 1 + jsIndexOf rest o.option + 1, dur⟩]
            else o.picked)
          = (o.option,
            if o.option ∈ oid :: rest then
              o.picked ++ [⟨k + jsIndexOf (oid :: rest) o.option + 1, dur⟩]
            else o.picked)
        by_cases hmem : o.option ∈ rest
        · rw [if_pos hmem, if_pos (List.mem_cons_of_mem _ hmem), jsIndexOf_cons,
              if_neg (show ¬ oid = o.option from fun hh => ho hh.symm)]
          have harith : k + (jsIndexOf rest o.option + 1) + 1
              = k + 1 + jsIndexOf rest o.option + 1 := by omega
          rw [harith]
        · rw [if_neg hmem,
              if_neg (show o.option ∉ oid :: rest from fun hc =>
                (List.mem_cons.mp hc).elim (fun hh => ho hh) (fun hh => hmem hh))]

theorem submitPicks_spec (data : List OptionData) (items : List Nat) (dur : Nat)
    (hnd : (data.map (·.option)).Nodup) (hperm : items.Perm (data.map (·.option))) :
    (submitPicks data items dur).map (fun o => (o.option, o.picked))
      = data.map fun o =>
          (o.option, o.picked ++ [⟨jsIndexOf items o.option + 1, dur⟩]) := by
  have hni : items.Nodup := hperm.nodup_iff.mpr hnd
  rw [submitPicks, submitPicksAux_spec dur items data 0 hnd hni]
  refine List.map_congr_left ?_
  intro o ho
  have hmem : o.option ∈ items :=
    hperm.mem_iff.mpr (List.mem_map_of_mem (·.option) ho)
  simp [hmem]

/-- Claim C5 counterexample: after a drag session that drops the item
on itself (a no-op reorder) the working order is still the identity
permutation, yet a single confirm submits immediately: no blocking
confirmation dialog is shown, because the guard is hasDragged (a drag
started), not whether the order is still the identity. -/
theorem c5_identity_order_submits_without_dialog :
    ∃ s1, dndRun dataTwo (dndInit 0 dataTwo) [.dragGesture 1 1] = some s1 ∧
      s1.items = (dndInit 0 dataTwo).items ∧
      s1.showConfirmation = false ∧
      ∃ s2, dndStep dataTwo s1 (.confirmClick 7) = some s2 ∧
        s2.showConfirmation = false ∧
        s2.submitted = some [⟨1, 0, 0, [⟨1, 7⟩]⟩, ⟨2, 0, 0, [⟨2, 7⟩]⟩] := by
  refine ⟨⟨[1, 2], true, false, 0, none⟩, by decide, by decide, by decide, ?_⟩
  exact ⟨⟨[1, 2], true, false, 0, some [⟨1, 0, 0, [⟨1, 7⟩]⟩, ⟨2, 0, 0, [⟨2, 7⟩]⟩]⟩,
         by decide, by decide, by decide⟩

/-- Claim C5 as amended: in a dnd trial, confirming when no drag session
was ever started (in which case the working order is necessarily still
the identity permutation) blocks on the confirmation dialog without
submitting; confirming after a drag, or continuing out of the dialog,
submits, and the submitted data assigns every option exactly one
PickEvent whose rank is its position in the final working order plus one
and whose elapsed time is the one shared duration. -/
theorem c5_dnd_confirm_semantics (data : List OptionData) (t0 : Nat)
    (evts : List DndEvent) (s : DndState)
    (hrun : dndRun data (dndInit t0 data) evts = some s) :
    s.items.Perm (data.map (·.option)) ∧
    (s.hasDragged = false → s.items = data.map (·.option)) ∧
    (s.hasDragged = false → s.showConfirmation = false → s.submitted = none →
       ∀ t, dndStep data s (.confirmClick t) = some { s with showConfirmation := true }) ∧
    (s.hasDragged = true → s.showConfirmation = false → s.submitted = none →
       ∀ t, dndStep data s (.confirmClick t)
         = some { s with
             submitted := some (submitPicks data s.items (t - s.startedTimestamp)) }) ∧
    (s.showConfirmation = true → s.submitted = none →
       ∀ t, dndStep data s (.continueClick t)
         = some { s with showConfirmation := false,
                         submitted :=
                           some (submitPicks data s.items (t - s.startedTimestamp)) }) ∧
    ((data.map (·.option)).Nodup → ∀ dur,
       (submitPicks data s.items dur).map (fun o => (o.option, o.picked))
         = data.map fun o =>
             (o.option, o.picked ++ [⟨jsIndexOf s.items o.option + 1, dur⟩])) := by
  obtain ⟨hperm, hid⟩ := dnd_run_inv evts data (dndInit t0 data) s
    (List.Perm.refl _) (fun _ => rfl) hrun
  refine ⟨hperm, hid, ?_, ?_, ?_,
          fun hnd dur => submitPicks_spec data s.items dur hnd hperm⟩
  · intro hfd hsc hsub t
    simp [dndStep, hsub, hsc, hfd]
  · intro hfd hsc hsub t
    simp [dndStep, hsub, hsc, hfd]
  · intro hsc hsub t
    simp [dndStep, hsub, hsc]

/-- Claim C5 witness: the amended semantics at a dnd run over two
options that performed one real reorder. -/
theorem c5_dnd_confirm_semantics_witness :
    (dndRun dataTwo (dndInit 0 dataTwo) [.dragGesture 2 1] = some dndMid) ∧
    (dndMid.items.Perm (dataTwo.map (·.option)) ∧
     (dndMid.hasDragged = false → dndMid.items = dataTwo.map (·.option)) ∧
     (dndMid.hasDragged = false → dndMid.showConfirmation = false →
        dndMid.submitted = none →
        ∀ t, dndStep dataTwo dndMid (.confirmClick t)
          = some { dndMid with showConfirmation := true }) ∧
     (dndMid.hasDragged = true → dndMid.showConfirmation = false →
        dndMid.submitted = none →
        ∀ t, dndStep dataTwo dndMid (.confirmClick t)
          = some { dndMid with
              submitted :=
                some (submitPicks dataTwo dndMid.items (t - dndMid.startedTimestamp)) }) ∧
     (dndMid.showConfirmation = true → dndMid.submitted = none →
        ∀ t, dndStep dataTwo dndMid (.continueClick t)
          = some { dndMid with showConfirmation := false,
                               submitted :=
                                 some (submitPicks dataTwo dndMid.items
                                   (t - dndMid.startedTimestamp)) }) ∧
     ((dataTwo.map (·.option)).Nodup → ∀ dur,
        (submitPicks dataTwo dndMid.items dur).map (fun o => (o.option, o.picked))
          = dataTwo.map fun o =>
              (o.option, o.picked ++ [⟨jsIndexOf dndMid.items o.option + 1, dur⟩]))) :=
  ⟨by decide,
   c5_dnd_confirm_semantics dataTwo 0 [.dragGesture 2 1] dndMid (by decide)⟩

end EyewitnessStudy
